import Mathlib

/-!
Verification of the file-selection and tree-rendering core of the `codewise`
CLI (src/index.ts).  The TypeScript source is shallowly embedded: filesystem
reads are modelled by explicit state (association lists from paths to data),
thrown exceptions by `Except`, and the third-party matchers (`glob`,
`ignore`) by executable glob/gitignore matching functions over `/`-separated
path segments, following the semantics the tool relies on (segment globbing
with `*`, `?` and `**`; gitignore rule lists where the last matching rule
wins and a leading `!` negates).  All definitions are computable so concrete
runs can be evaluated inside proofs.
-/

/-- OutputFormat enum from src/index.ts (lines 20-23). -/
inductive OutputFormat where
  | XML
  | Markdown
deriving DecidableEq

/-- Config interface from src/index.ts (lines 25-30).  `include` is a Lean
keyword, hence the quoted field name. -/
structure Config where
  «include» : List String
  exclude : List String
  maxFileSize : Nat
  outputFormat : OutputFormat

/-- DEFAULT_CONFIG from src/index.ts (lines 32-37). -/
def DEFAULT_CONFIG : Config :=
  { «include» := ["**/*"]
  , exclude := ["node_modules/**", ".git/**", "package-lock.json", "yarn.lock"]
  , maxFileSize := 100 * 1024
  , outputFormat := OutputFormat.Markdown }

/-- Splits a character list at separator characters; `splitOnChar sep [] =
[[]]`, matching JS `"".split(sep)`. -/
def splitOnChar (sep : Char) : List Char → List (List Char)
  | [] => [[]]
  | c :: rest =>
      if c = sep then [] :: splitOnChar sep rest
      else match splitOnChar sep rest with
        | s :: ss => (c :: s) :: ss
        | [] => [[c]]

/-- Splits a character list at `/` separators; model of both
`path.split(path.sep)` (POSIX separator) and the segment view used by glob
and gitignore matching. -/
def splitSeg : List Char → List (List Char) :=
  splitOnChar '/'

/-- Path split into segments, as in `filePath.split(path.sep)`. -/
def splitPath (s : String) : List String :=
  (splitSeg s.data).map String.mk

/-- True when the character list contains a `/`. -/
def hasSlash : List Char → Bool
  | [] => false
  | c :: rest => c == '/' || hasSlash rest

/-- Matches one glob segment against one path segment: `*` matches any run
of characters, `?` any single character, anything else itself. -/
def segMatch : List Char → List Char → Bool
  | [], qs => qs.isEmpty
  | c :: ps, qs =>
      if c = '*' then qs.tails.any (fun qs2 => segMatch ps qs2)
      else match qs with
        | [] => false
        | q :: qs2 => (c == '?' || c == q) && segMatch ps qs2

/-- Matches a segment-list pattern against a segment-list path; a `**`
segment matches any (possibly empty) run of path segments. -/
def segsMatch : List (List Char) → List (List Char) → Bool
  | [], qs => qs.isEmpty
  | p :: ps, qs =>
      if p = ['*', '*'] then qs.tails.any (fun qs2 => segsMatch ps qs2)
      else match qs with
        | [] => false
        | q :: qs2 => segMatch p q && segsMatch ps qs2

/-- Model of the `glob` library's pattern match: patterns are anchored at
the glob root and matched segment-wise. -/
def globMatch (pat p : String) : Bool :=
  segsMatch (splitSeg pat.data) (splitSeg p.data)

/-- Gitignore-style rule negation: a rule starting with `!` re-includes. -/
def ruleNegated (r : String) : Bool :=
  match r.data with
  | '!' :: _ => true
  | _ => false

/-- The pattern part of a gitignore-style rule (the rule without a leading
`!`). -/
def rulePattern (r : String) : String :=
  match r.data with
  | '!' :: rest => String.mk rest
  | _ => r

/-- Model of one gitignore pattern applied to a relative path: a pattern
containing `/` is anchored and matched segment-wise; a pattern without `/`
matches when any single path segment matches it. -/
def ruleMatch (pat p : String) : Bool :=
  if hasSlash pat.data then segsMatch (splitSeg pat.data) (splitSeg p.data)
  else (splitSeg p.data).any (fun seg => segMatch pat.data seg)

/-- Model of the `ignore` package predicate `ig.ignores(p)` for a rule list:
rules are scanned in order and the last rule whose pattern matches decides;
a negated rule (leading `!`) re-includes, so the path is ignored exactly
when the last matching rule is not negated. -/
def ignores (rules : List String) (p : String) : Bool :=
  rules.foldl (fun acc r => if ruleMatch (rulePattern r) p then !(ruleNegated r) else acc) false

/-- Model of `ignore().add(gitignoreContent)`: the content is split into
lines, skipping blank lines and `#` comments. -/
def parseGitignore (content : String) : List String :=
  ((splitOnChar '\n' content.data).map String.mk).filter
    (fun l => match l.data with
      | [] => false
      | '#' :: _ => false
      | _ => true)

/-- createIgnore from src/index.ts (lines 53-59): the rule list is the
configured excludes, then the output file path, then the rules of the
working directory's `.gitignore` when that file exists (`none` models an
absent `.gitignore`). -/
def createIgnore (config : Config) (outputFile : String) (gitignore : Option String) : List String :=
  (config.exclude ++ [outputFile]) ++
    (match gitignore with
     | some content => parseGitignore content
     | none => [])

/-- Model of `path.join(dir, f)` for the forms the tool uses (plain relative
name under a base directory). -/
def joinPath (dir f : String) : String :=
  if dir = "" then f else dir ++ "/" ++ f

/-- Model of `path.relative(cwd, p)` for the case the tool relies on: `p`
lies under `cwd`, so the relative path is `p` with the `cwd ++ "/"` prefix
removed (and `p` itself when `cwd` is empty or not a prefix). -/
def pathRelative (cwd p : String) : String :=
  if cwd = "" then p
  else if List.isPrefixOf (cwd.data ++ ['/']) p.data then
    String.mk (p.data.drop (cwd.data.length + 1))
  else p

/-- Model of `fs.statSync(p).size` over a filesystem snapshot: the snapshot
lists candidate paths with `some size` when the stat succeeds and `none`
when the file has disappeared or is unreadable, in which case statSync
throws (modelled as `Except.error`). -/
def statSync (fs : List (String × Option Nat)) (p : String) : Except String Nat :=
  match fs.find? (fun e => e.1 == p) with
  | some (_, some n) => Except.ok n
  | _ => Except.error ("ENOENT: no such file or directory, stat " ++ p)

/-- Model of the `glob(patterns, options)` call in getIncludedFiles: from
the filesystem snapshot (files only, dotfiles included), keep the paths
matching at least one pattern and no `ignore` option pattern. -/
def glob (patterns ignorePats : List String) (fs : List (String × Option Nat)) : List String :=
  (fs.map Prod.fst).filter
    (fun p => patterns.any (fun pat => globMatch pat p) &&
              !(ignorePats.any (fun pat => globMatch pat p)))

/-- The `allFiles.filter(...)` body of getIncludedFiles (src/index.ts lines
94-99): for each candidate, `fs.statSync` reads the size (throwing aborts
the whole selection, as in the source, where the filter callback has no
try/catch), and the file is kept when the ignore matcher does not flag it
and its size is at most `maxFileSize`. -/
def sizeFilter (fs : List (String × Option Nat)) (config : Config) (ig : List String) :
    List String → Except String (List String)
  | [] => Except.ok []
  | file :: rest =>
      match statSync fs file with
      | Except.error e => Except.error e
      | Except.ok stats =>
          match sizeFilter fs config ig rest with
          | Except.error e => Except.error e
          | Except.ok tail =>
              Except.ok
                (if ignores ig file = false ∧ stats ≤ config.maxFileSize
                 then file :: tail else tail)

/-- getIncludedFiles from src/index.ts (lines 85-101): glob the include
patterns (defaulting to `**/*` when the include list is empty) with
`node_modules`, `.git` and the configured excludes pruned at the glob
level, then apply the ignore matcher and the size cutoff. -/
def getIncludedFiles (fs : List (String × Option Nat)) (config : Config) (ig : List String) :
    Except String (List String) :=
  let globPattern := if config.«include».length > 0 then config.«include» else ["**/*"]
  let globIgnore := ["**/node_modules/**", "**/.git/**"] ++ config.exclude
  let allFiles := glob globPattern globIgnore fs
  sizeFilter fs config ig allFiles

/-- Directory entry of the on-disk tree walked by generateFullFileTree: a
plain file (or other non-directory) with its name, or a directory with its
name and the children returned by `fs.readdirSync`, in listing order. -/
inductive FSEntry where
  | file (name : String)
  | dir (name : String) (children : List FSEntry)

/-- Box-drawing connector chosen from `isLast` (src/index.ts line 68). -/
def connector (isLast : Bool) : String :=
  if isLast then "└── " else "├── "

/-- Continuation indent added below an entry (src/index.ts lines 75, 77). -/
def contIndent (isLast : Bool) : String :=
  if isLast then "    " else "│   "

mutual

/-- Body of the `files.forEach` callback of generateFullFileTree
(src/index.ts lines 64-80) for one directory entry: the entry's own line is
always emitted; a directory named `node_modules` or `.git` gets a single
collapsed `...` child and is not recursed into; any other directory is
recursed into exactly when the ignore matcher does not flag its relative
path; files never recurse.  `relDir` is the relative path of the directory
being listed (empty at the working directory). -/
def renderEntry (ig : List String) (relDir pref : String) (isLast : Bool) : FSEntry → String
  | FSEntry.file name => pref ++ connector isLast ++ name ++ "\n"
  | FSEntry.dir name children =>
      let relativePath := joinPath relDir name
      let line := pref ++ connector isLast ++ name ++ "\n"
      if name = "node_modules" ∨ name = ".git" then
        line ++ pref ++ contIndent isLast ++ "└── ...\n"
      else if !(ignores ig relativePath) then
        line ++ renderEntries ig relativePath (pref ++ contIndent isLast) children
      else line

/-- The `files.forEach` loop of generateFullFileTree: each entry is rendered
with `isLast` true exactly for the final entry of the listing. -/
def renderEntries (ig : List String) (relDir pref : String) : List FSEntry → String
  | [] => ""
  | [entry] => renderEntry ig relDir pref true entry
  | entry :: rest => renderEntry ig relDir pref false entry ++ renderEntries ig relDir pref rest

end

/-- generateFullFileTree from src/index.ts (lines 61-83), for the directory
whose relative path is `relDir` and whose listing is `entries`. -/
def generateFullFileTree (ig : List String) (relDir : String) (entries : List FSEntry) : String :=
  renderEntries ig relDir "" entries

/-- Node of the nested-mapping trie built by formatIncludedFiles: the
JavaScript value stored under a key is either `null` (a file leaf) or a
nested plain object, modelled as its key-value pairs in insertion order. -/
inductive JNode where
  | nullv
  | obj (entries : List (String × JNode))

/-- JavaScript property read `o[k]` on the insertion-ordered store. -/
def objGet : List (String × JNode) → String → Option JNode
  | [], _ => none
  | (k2, v) :: rest, k => if k2 = k then some v else objGet rest k

/-- JavaScript property write `o[k] = v`: an existing key keeps its
position, a new key is appended. -/
def objSet : List (String × JNode) → String → JNode → List (String × JNode)
  | [], k, v => [(k, v)]
  | (k2, v2) :: rest, k, v =>
      if k2 = k then (k, v) :: rest else (k2, v2) :: objSet rest k v

/-- JavaScript truthiness of a property lookup: `undefined` (absent) and
`null` are falsy, an object is truthy. -/
def truthy : Option JNode → Bool
  | some (JNode.obj _) => true
  | _ => false

/-- The `pathParts.forEach` body of formatIncludedFiles (src/index.ts lines
109-120), resolved into one pass over the remaining segments: for the last
segment, `if (!currentNode[part]) currentNode[part] = null` creates a file
leaf unless a truthy (object) entry already exists; for an inner segment,
`if (!currentNode[part]) currentNode[part] = {}` replaces an absent or
`null` entry by a fresh object — overwriting a file leaf — and recursion
continues inside that object. -/
def insertParts : List (String × JNode) → List String → List (String × JNode)
  | o, [] => o
  | o, [part] => if truthy (objGet o part) then o else objSet o part JNode.nullv
  | o, part :: rest =>
      let child := match objGet o part with
        | some (JNode.obj e) => e
        | _ => []
      objSet o part (JNode.obj (insertParts child rest))

/-- The trie-building loop of formatIncludedFiles (src/index.ts lines
106-121): each included file path is split at the path separator and
inserted into the nested mapping. -/
def buildTrie (files : List String) : List (String × JNode) :=
  files.foldl (fun acc filePath => insertParts acc (splitPath filePath)) []

/-- Decimal value of a digit-character list. -/
def digitsToNat (cs : List Char) : Nat :=
  cs.foldl (fun n c => n * 10 + (c.toNat - 48)) 0

/-- ECMAScript array-index test used by object property ordering: a
canonical decimal string denoting an integer below 2^32 - 1. -/
def isArrayIndex (s : String) : Bool :=
  !s.data.isEmpty && s.data.all Char.isDigit &&
    (s == "0" || !(s.data.take 1 == ['0'])) &&
    digitsToNat s.data < 4294967295

/-- Numeric value of an array-index key. -/
def keyNum (s : String) : Nat :=
  digitsToNat s.data

/-- Insertion of one pair into a list sorted by ascending numeric key. -/
def insertSorted (x : String × JNode) : List (String × JNode) → List (String × JNode)
  | [] => [x]
  | y :: ys => if keyNum x.1 ≤ keyNum y.1 then x :: y :: ys else y :: insertSorted x ys

/-- Sort by ascending numeric key value. -/
def sortNumeric (l : List (String × JNode)) : List (String × JNode) :=
  l.foldr insertSorted []

/-- Model of `Object.entries(node)`: per ECMAScript own-property order,
array-index keys come first in ascending numeric order, then the remaining
keys in insertion order. -/
def jsEntries (o : List (String × JNode)) : List (String × JNode) :=
  sortNumeric (o.filter (fun e => isArrayIndex e.1)) ++
    o.filter (fun e => !isArrayIndex e.1)

/-- The renderTree loop of formatIncludedFiles (src/index.ts lines 123-136)
applied to an `Object.entries` listing: each pair gets its connector line
and, when its value is not `null`, the child object is rendered below it
with the extended prefix, reading the children again via `Object.entries`. -/
def renderList : List (String × JNode) → String → String
  | [], _ => ""
  | [(k, v)], pref =>
      pref ++ "└── " ++ k ++ "\n" ++
        (match v with
         | JNode.nullv => ""
         | JNode.obj e => renderList (jsEntries e) (pref ++ "    "))
  | (k, v) :: rest, pref =>
      pref ++ "├── " ++ k ++ "\n" ++
        (match v with
         | JNode.nullv => ""
         | JNode.obj e => renderList (jsEntries e) (pref ++ "│   ")) ++
        renderList rest pref
termination_by l _ => sizeOf l
decreasing_by
  all_goals simp_wf
  all_goals
    first
    | omega
    | · have hins : ∀ (x : String × JNode) (l : List (String × JNode)),
            sizeOf (insertSorted x l) = 1 + sizeOf x + sizeOf l := by
          intro x l
          induction l with
          | nil => simp [insertSorted]
          | cons y ys ih =>
              simp only [insertSorted]
              split
              · simp_arith
              · simp_arith [ih]
        have hsort : ∀ (l : List (String × JNode)),
            sizeOf (sortNumeric l) = sizeOf l := by
          intro l
          induction l with
          | nil => simp [sortNumeric]
          | cons y ys ih =>
              have : sortNumeric (y :: ys) = insertSorted y (sortNumeric ys) := rfl
              rw [this, hins, ih]
              simp_arith
        have hfil : ∀ (l : List (String × JNode)),
            sizeOf (List.filter (fun e => isArrayIndex e.1) l) +
              sizeOf (List.filter (fun e => !isArrayIndex e.1) l) = sizeOf l + 1 := by
          intro l
          induction l with
          | nil => simp
          | cons y ys ih =>
              by_cases hy : isArrayIndex y.1
              · simp only [List.filter_cons, hy]
                simp_arith [ih]
              · simp only [List.filter_cons, hy]
                simp only [Bool.not_false, if_pos, if_neg]
                simp_arith [ih]
        have happ : ∀ (a b : List (String × JNode)),
            sizeOf (a ++ b) + 1 = sizeOf a + sizeOf b := by
          intro a b
          induction a with
          | nil => simp_arith
          | cons y ys ih => simp_arith [ih]
        have hje : sizeOf (jsEntries e) = sizeOf e := by
          have h1 := happ (sortNumeric (List.filter (fun e2 => isArrayIndex e2.1) e))
            (List.filter (fun e2 => !isArrayIndex e2.1) e)
          have h2 := hsort (List.filter (fun e2 => isArrayIndex e2.1) e)
          have h3 := hfil e
          simp only [jsEntries]
          omega
        simp_arith [hje]

/-- formatIncludedFiles from src/index.ts (lines 103-139): build the nested
mapping from the included file list, then render it with an empty prefix. -/
def formatIncludedFiles (files : List String) : String :=
  renderList (jsEntries (buildTrie files)) ""

/-- Rendering loop written from the specification words alone (spec section
4.2, inclusion tree mode): identical drawing algorithm, but the siblings of
every node are visited purely in mapping insertion order, with no property
reordering.  Used to compare the source's rendering against the spec's
claimed order. -/
def renderListIns : List (String × JNode) → String → String
  | [], _ => ""
  | [(k, v)], pref =>
      pref ++ "└── " ++ k ++ "\n" ++
        (match v with
         | JNode.nullv => ""
         | JNode.obj e => renderListIns e (pref ++ "    "))
  | (k, v) :: rest, pref =>
      pref ++ "├── " ++ k ++ "\n" ++
        (match v with
         | JNode.nullv => ""
         | JNode.obj e => renderListIns e (pref ++ "│   ")) ++
        renderListIns rest pref
termination_by l _ => sizeOf l
decreasing_by all_goals simp_wf <;> simp_arith

/-- Inclusion-tree rendering as the specification describes it: sibling
order is pure insertion order at every level. -/
def formatIncludedFilesInsertionOrder (files : List String) : String :=
  renderListIns (buildTrie files) ""

/-- Walks the trie along a nonempty segment list, stepping through object
values only; returns the node stored at the end, when each intermediate
value is an object. -/
def lookupPath : List (String × JNode) → List String → Option JNode
  | _, [] => none
  | o, [part] => objGet o part
  | o, part :: rest =>
      match objGet o part with
      | some (JNode.obj e) => lookupPath e rest
      | _ => none

/-- True when the trie stores a directory node (an object) at the given
segment list. -/
def isDirAt (o : List (String × JNode)) (parts : List String) : Bool :=
  match lookupPath o parts with
  | some (JNode.obj _) => true
  | _ => false

/-- True when no key anywhere in the trie is an ECMAScript array-index
string (so JS property reordering cannot kick in at any level). -/
def noIndexKeys : List (String × JNode) → Bool
  | [] => true
  | (k, JNode.nullv) :: rest => !isArrayIndex k && noIndexKeys rest
  | (k, JNode.obj e) :: rest => !isArrayIndex k && noIndexKeys e && noIndexKeys rest
termination_by l => sizeOf l
decreasing_by all_goals simp_wf <;> simp_arith

/-- Key discipline of one stored value: a file leaf is always fine, an
object must satisfy `noIndexKeys` recursively. -/
def valueKeysOk : JNode → Bool
  | JNode.nullv => true
  | JNode.obj e => noIndexKeys e

/-- Model of `fs.readFileSync(p, 'utf8')` over a content store: `Except.ok`
with the file's text when present, `Except.error` (a thrown exception) when
missing or unreadable. -/
def readFileSync (store : List (String × String)) (p : String) : Except String String :=
  match store.find? (fun e => e.1 == p) with
  | some e => Except.ok e.2
  | none => Except.error ("ENOENT: no such file or directory, open " ++ p)

/-- getFileContent from src/index.ts (lines 141-154): on a successful read
the content is wrapped per output format — XML: a `<file path="...">`
element holding the raw content inside a CDATA section; markdown: a fenced
code block whose info-string is the path relative to the working directory
— each followed by a blank line.  A read failure is caught and replaced by
an inline error line naming the path and the failure reason. -/
def getFileContent (cwd filePath : String) (readResult : Except String String)
    (config : Config) : String :=
  match readResult with
  | Except.ok content =>
      let relativePath := pathRelative cwd filePath
      if config.outputFormat = OutputFormat.XML then
        "<file path=\"" ++ relativePath ++ "\">\n<![CDATA[\n" ++ content ++ "\n]]>\n</file>\n\n"
      else
        "```" ++ relativePath ++ "\n" ++ content ++ "\n```\n\n"
  | Except.error e =>
      "Error reading file " ++ filePath ++ ": " ++ e ++ "\n\n"

/-- Extracts the slice of `block` between a prefix of the given length and a
suffix of the given length; the literal-content extraction used to state the
round-trip properties. -/
def extractInner (pre suf block : String) : String :=
  String.mk ((block.data.drop pre.data.length).take
    (block.data.length - pre.data.length - suf.data.length))

/-- Filesystem snapshot seen by one run of the context assembler: the
directory tree listing at the working directory, the stat view used by
selection, and the content store used by the per-file reads (a path missing
here models a read failure for a file that selection still saw). -/
structure FsState where
  tree : List FSEntry
  files : List (String × Option Nat)
  contents : List (String × String)

/-- The `for (const filePath of includedFiles)` loop of generateCodeContext
(src/index.ts lines 164-166): concatenates the per-file blocks in selector
order, reading each file at `path.join(dir, filePath)`. -/
def contentBlocks (cwd : String) (store : List (String × String)) (config : Config) :
    List String → String
  | [] => ""
  | filePath :: rest =>
      getFileContent cwd (joinPath cwd filePath)
          (readFileSync store (joinPath cwd filePath)) config ++
        contentBlocks cwd store config rest

/-- generateCodeContext from src/index.ts (lines 156-169), with `dir` equal
to the working directory as in the caller: full tree section, inclusion
tree section built from the selection result, then the per-file content
blocks.  A selection failure propagates (the async function rejects). -/
def generateCodeContext (cwd : String) (st : FsState) (config : Config) (ig : List String) :
    Except String String :=
  match getIncludedFiles st.files config ig with
  | Except.error e => Except.error e
  | Except.ok includedFiles =>
      Except.ok ("Full File Tree:\n\n" ++ generateFullFileTree ig "" st.tree ++
        "\nIncluded Files:\n\n" ++ formatIncludedFiles includedFiles ++
        "\nCode Context:\n\n" ++ contentBlocks cwd st.contents config includedFiles)

/-- writeToFile from src/index.ts (lines 171-178): the outcome of the
`fs.writeFileSync` call is the argument; both branches are caught inside
the function, which only emits log lines — its type shows no error can
escape to the caller. -/
def writeToFile (writeResult : Except String Unit) (outputPath : String) : List String :=
  match writeResult with
  | Except.ok _ => ["info: Content written to " ++ outputPath]
  | Except.error e => ["error: Error writing to file " ++ outputPath ++ ": " ++ e]

/-- Tail of main from src/index.ts (lines 230-237) after the interactive
prompt, returning the log lines and the process exit code: when the user
proceeds, the context is generated, writeToFile runs (its write outcome is
the `writeResult` argument), and the run logs the final message and exits
normally; no branch re-raises, so `main().catch` never fires and the exit
code is 0. -/
def mainAfterPrompt (proceed : Bool) (writeResult : Except String Unit)
    (outputPath : String) : List String × Nat :=
  if proceed then
    (["info: Generating code context..."] ++ writeToFile writeResult outputPath ++
      ["info: Content generated. You can find it in the output file."], 0)
  else
    (["info: Context generation aborted."], 0)

/-- Soundness of the size/ignore filter loop: every file in an `ok` result
was a candidate, is not flagged by the matcher, and has a successfully
statted size within the limit. -/
theorem mem_sizeFilter {fs : List (String × Option Nat)} {config : Config} {ig : List String}
    {lst l : List String} {f : String}
    (h : sizeFilter fs config ig lst = Except.ok l) (hf : f ∈ l) :
    f ∈ lst ∧ ignores ig f = false ∧
      ∃ n, statSync fs f = Except.ok n ∧ n ≤ config.maxFileSize := by
  induction lst generalizing l with
  | nil =>
      simp only [sizeFilter, Except.ok.injEq] at h
      subst h
      cases hf
  | cons file rest ih =>
      simp only [sizeFilter] at h
      cases hst : statSync fs file with
      | error e => rw [hst] at h; cases h
      | ok stats =>
          rw [hst] at h
          cases hsf : sizeFilter fs config ig rest with
          | error e =>
              rw [hsf] at h
              cases h
          | ok tail =>
              rw [hsf] at h
              simp only [Except.ok.injEq] at h
              by_cases hc : ignores ig file = false ∧ stats ≤ config.maxFileSize
              · rw [if_pos hc] at h
                subst h
                rcases List.mem_cons.mp hf with heq | htail
                · subst heq
                  exact ⟨List.mem_cons_self _ _, hc.1, stats, hst, hc.2⟩
                · rcases ih hsf htail with ⟨h1, h2, h3⟩
                  exact ⟨List.mem_cons_of_mem _ h1, h2, h3⟩
              · rw [if_neg hc] at h
                subst h
                rcases ih hsf hf with ⟨h1, h2, h3⟩
                exact ⟨List.mem_cons_of_mem _ h1, h2, h3⟩

/-- Soundness of the embedded glob call: every returned path matches some
include pattern and no ignore-option pattern. -/
theorem mem_glob {patterns ignorePats : List String} {fs : List (String × Option Nat)}
    {f : String} (h : f ∈ glob patterns ignorePats fs) :
    patterns.any (fun pat => globMatch pat f) = true ∧
      ignorePats.any (fun pat => globMatch pat f) = false := by
  rcases List.mem_filter.mp h with ⟨-, hp⟩
  simp only [Bool.and_eq_true, Bool.not_eq_true'] at hp
  exact hp

/-- Soundness of the whole selection: every file in an `ok` result of
getIncludedFiles matches an include pattern (with the `**/*` default for an
empty include list), matches no glob-level prune pattern, is not flagged by
the ignore matcher, and statted at a size within `maxFileSize`. -/
theorem mem_getIncludedFiles {fs : List (String × Option Nat)} {config : Config}
    {ig : List String} {l : List String} {f : String}
    (h : getIncludedFiles fs config ig = Except.ok l) (hf : f ∈ l) :
    (if config.«include».length > 0 then config.«include» else ["**/*"]).any
        (fun pat => globMatch pat f) = true ∧
      (["**/node_modules/**", "**/.git/**"] ++ config.exclude).any
        (fun pat => globMatch pat f) = false ∧
      ignores ig f = false ∧
      ∃ n, statSync fs f = Except.ok n ∧ n ≤ config.maxFileSize := by
  have hmem := mem_sizeFilter h hf
  rcases hmem with ⟨hin, hig, hsz⟩
  rcases mem_glob hin with ⟨hpat, hprune⟩
  exact ⟨hpat, hprune, hig, hsz⟩

/-- A segment glob pattern matches itself. -/
theorem segMatch_refl (cs : List Char) : segMatch cs cs = true := by
  induction cs with
  | nil => rfl
  | cons c ps ih =>
      simp only [segMatch]
      by_cases hc : c = '*'
      · rw [if_pos hc]
        exact List.any_eq_true.mpr ⟨ps, (List.mem_tails ps (c :: ps)).mpr (List.suffix_cons c ps), ih⟩
      · rw [if_neg hc]
        simp [ih]

/-- A segment-list glob pattern matches itself. -/
theorem segsMatch_refl (l : List (List Char)) : segsMatch l l = true := by
  induction l with
  | nil => rfl
  | cons p ps ih =>
      simp only [segsMatch]
      by_cases hp : p = ['*', '*']
      · rw [if_pos hp]
        exact List.any_eq_true.mpr ⟨ps, (List.mem_tails ps (p :: ps)).mpr (List.suffix_cons p ps), ih⟩
      · rw [if_neg hp]
        simp [segMatch_refl, ih]

/-- Splitting a list free of the separator yields the singleton list. -/
theorem splitOnChar_no_sep {sep : Char} {cs : List Char} (h : sep ∉ cs) :
    splitOnChar sep cs = [cs] := by
  induction cs with
  | nil => rfl
  | cons c rest ih =>
      have hc : ¬(c = sep) := fun heq => h (heq ▸ List.mem_cons_self c rest)
      have hr : sep ∉ rest := fun hm => h (List.mem_cons_of_mem c hm)
      simp only [splitOnChar, if_neg hc, ih hr]

/-- When `hasSlash` is false no character of the list is a slash. -/
theorem hasSlash_eq_false {cs : List Char} (h : hasSlash cs = false) : '/' ∉ cs := by
  induction cs with
  | nil => simp
  | cons c rest ih =>
      simp only [hasSlash, Bool.or_eq_false_iff] at h
      intro hm
      rcases List.mem_cons.mp hm with heq | hmem
      · rw [heq] at h
        simp at h
      · exact ih h.2 hmem

/-- A gitignore pattern matches itself as a path. -/
theorem ruleMatch_refl (r : String) : ruleMatch r r = true := by
  unfold ruleMatch
  by_cases hs : hasSlash r.data
  · rw [if_pos hs]
    exact segsMatch_refl _
  · rw [if_neg (by simp [hs])]
    have hns : '/' ∉ r.data := hasSlash_eq_false (by simpa using hs)
    show (splitSeg r.data).any (fun seg => segMatch r.data seg) = true
    unfold splitSeg
    rw [splitOnChar_no_sep hns]
    simp [segMatch_refl]

/-- A rule that is not negated is its own pattern. -/
theorem rulePattern_eq {r : String} (h : ruleNegated r = false) : rulePattern r = r := by
  unfold rulePattern
  split
  · exfalso
    unfold ruleNegated at h
    next heq => rw [heq] at h; cases h
  · rfl

/-- Once the running ignore verdict is `true`, rules that are either
non-matching or non-negated keep it `true`. -/
theorem foldl_ig_true (p : String) (rules : List String)
    (h : ∀ r ∈ rules, ruleNegated r = true → ruleMatch (rulePattern r) p = false) :
    rules.foldl
        (fun acc r => if ruleMatch (rulePattern r) p then !(ruleNegated r) else acc)
        true = true := by
  induction rules with
  | nil => rfl
  | cons r rest ih =>
      simp only [List.foldl_cons]
      by_cases hm : ruleMatch (rulePattern r) p = true
      · rw [if_pos hm]
        have hneg : ruleNegated r = false := by
          cases hn : ruleNegated r with
          | false => rfl
          | true => exact absurd hm (by simp [h r (List.mem_cons_self r rest) hn])
        rw [hneg]
        simp only [Bool.not_false]
        exact ih (fun r2 hr2 => h r2 (List.mem_cons_of_mem r hr2))
      · rw [if_neg hm]
        exact ih (fun r2 hr2 => h r2 (List.mem_cons_of_mem r hr2))

/-- The matcher built by createIgnore flags the output file, provided the
output path is not itself a negation-shaped string and no negated gitignore
rule matches it (gitignore rules sit after the output rule, so a later
negation would win). -/
theorem ignores_createIgnore_self (config : Config) (outputFile : String)
    (gitignore : Option String)
    (hneg : ruleNegated outputFile = false)
    (hgit : ∀ r ∈ (match gitignore with
                   | some content => parseGitignore content
                   | none => []),
            ruleNegated r = true → ruleMatch (rulePattern r) outputFile = false) :
    ignores (createIgnore config outputFile gitignore) outputFile = true := by
  unfold ignores createIgnore
  rw [List.foldl_append, List.foldl_append]
  simp only [List.foldl_cons, List.foldl_nil]
  rw [rulePattern_eq hneg, if_pos (ruleMatch_refl outputFile), hneg]
  simp only [Bool.not_false]
  exact foldl_ig_true outputFile _ hgit

/-- C1: every path in the list returned by getIncludedFiles matches at
least one include pattern (`**/*` standing in when the include list is
empty), is not flagged by the ignore matcher built by createIgnore from the
exclude patterns, output-file path and gitignore rules, and was statted at
a size of at most maxFileSize bytes. -/
theorem included_files_satisfy_selection_invariants
    (fs : List (String × Option Nat)) (config : Config) (outputFile : String)
    (gitignore : Option String) (l : List String) (f : String)
    (h : getIncludedFiles fs config (createIgnore config outputFile gitignore) = Except.ok l)
    (hf : f ∈ l) :
    (if config.«include».length > 0 then config.«include» else ["**/*"]).any
        (fun pat => globMatch pat f) = true ∧
      ignores (createIgnore config outputFile gitignore) f = false ∧
      ∃ n, statSync fs f = Except.ok n ∧ n ≤ config.maxFileSize := by
  rcases mem_getIncludedFiles h hf with ⟨h1, -, h3, h4⟩
  exact ⟨h1, h3, h4⟩

/-- Witness for C1 at a concrete run: one 10-byte file `a.txt` under the
default-like config, selected, satisfies all three invariants. -/
theorem included_files_satisfy_selection_invariants_witness :
    (if ({ «include» := ["**/*"], exclude := [], maxFileSize := 100,
           outputFormat := OutputFormat.Markdown } : Config).«include».length > 0
     then ({ «include» := ["**/*"], exclude := [], maxFileSize := 100,
             outputFormat := OutputFormat.Markdown } : Config).«include» else ["**/*"]).any
        (fun pat => globMatch pat "a.txt") = true ∧
      ignores (createIgnore
        { «include» := ["**/*"], exclude := [], maxFileSize := 100,
          outputFormat := OutputFormat.Markdown } "out.md" none) "a.txt" = false ∧
      ∃ n, statSync [("a.txt", some 10)] "a.txt" = Except.ok n ∧
        n ≤ ({ «include» := ["**/*"], exclude := [], maxFileSize := 100,
               outputFormat := OutputFormat.Markdown } : Config).maxFileSize :=
  included_files_satisfy_selection_invariants [("a.txt", some 10)]
    { «include» := ["**/*"], exclude := [], maxFileSize := 100,
      outputFormat := OutputFormat.Markdown }
    "out.md" none ["a.txt"] "a.txt" rfl (by simp)

/-- C2 counterexample: with an empty exclude list and a `.gitignore`
containing the single negation rule `!out.md`, the run with output path
`out.md` includes the output file itself — the negation is added after the
output rule and wins under last-match-wins evaluation, so the claim that the
output path is never a member of the selection result is false. -/
theorem output_self_exclusion_cex :
    getIncludedFiles [("out.md", some 5)]
        { «include» := ["**/*"], exclude := [], maxFileSize := 1000,
          outputFormat := OutputFormat.Markdown }
        (createIgnore
          { «include» := ["**/*"], exclude := [], maxFileSize := 1000,
            outputFormat := OutputFormat.Markdown } "out.md" (some "!out.md")) =
      Except.ok ["out.md"] ∧ "out.md" ∈ ["out.md"] :=
  ⟨rfl, by simp⟩

/-- C2 amended: the matcher built by createIgnore always contains the
output path as a rule, and the output file path is never a member of the
included-files list provided the output path is not itself a
negation-shaped string and no negated gitignore rule matches it (gitignore
rules are added after the output rule, so such a negation re-includes the
output file). -/
theorem output_self_exclusion_amended
    (fs : List (String × Option Nat)) (config : Config) (outputFile : String)
    (gitignore : Option String) (l : List String)
    (hneg : ruleNegated outputFile = false)
    (hgit : ∀ r ∈ (match gitignore with
                   | some content => parseGitignore content
                   | none => []),
            ruleNegated r = true → ruleMatch (rulePattern r) outputFile = false)
    (h : getIncludedFiles fs config (createIgnore config outputFile gitignore) = Except.ok l) :
    outputFile ∈ createIgnore config outputFile gitignore ∧ outputFile ∉ l := by
  constructor
  · unfold createIgnore
    simp
  · intro hmem
    rcases mem_getIncludedFiles h hmem with ⟨-, -, hig, -⟩
    rw [ignores_createIgnore_self config outputFile gitignore hneg hgit] at hig
    cases hig

/-- Witness for the amended C2 at a concrete run: a `.gitignore` with the
non-negated rule `*.log` and output path `out.md`; selection returns only
`a.txt` and the output file is excluded. -/
theorem output_self_exclusion_amended_witness :
    "out.md" ∈ createIgnore
        { «include» := ["**/*"], exclude := [], maxFileSize := 1000,
          outputFormat := OutputFormat.Markdown } "out.md" (some "*.log") ∧
      "out.md" ∉ ["a.txt"] :=
  output_self_exclusion_amended
    [("a.txt", some 10), ("out.md", some 5)]
    { «include» := ["**/*"], exclude := [], maxFileSize := 1000,
      outputFormat := OutputFormat.Markdown }
    "out.md" (some "*.log") ["a.txt"] (by decide) (by decide) rfl

/-- C3: the source's filter callback has no try/catch around
`fs.statSync`, so a candidate that disappears between the glob listing and
the size check does not get silently excluded — the thrown stat error
aborts the whole selection, losing the other candidates too.  The same
snapshot without the vanished file selects `a.txt` normally. -/
theorem stat_failure_aborts_selection :
    getIncludedFiles [("a.txt", some 1), ("ghost.txt", none)]
        { «include» := ["**/*"], exclude := [], maxFileSize := 102400,
          outputFormat := OutputFormat.Markdown } [] =
      Except.error "ENOENT: no such file or directory, stat ghost.txt" ∧
    getIncludedFiles [("a.txt", some 1)]
        { «include» := ["**/*"], exclude := [], maxFileSize := 102400,
          outputFormat := OutputFormat.Markdown } [] =
      Except.ok ["a.txt"] :=
  ⟨rfl, rfl⟩

/-- C4 counterexample: writeToFile catches a failing write and the run
still logs the final success message and exits with code 0 — the failure is
not reported to the caller and does not terminate the run, refuting the
claim as stated. -/
theorem write_failure_swallowed_cex :
    mainAfterPrompt true (Except.error "EACCES: permission denied") "codewise-output.md" =
      (["info: Generating code context...",
        "error: Error writing to file codewise-output.md: EACCES: permission denied",
        "info: Content generated. You can find it in the output file."], 0) :=
  rfl

/-- Extraction between a known prefix and suffix recovers the middle
exactly. -/
theorem extract_sandwich (pre c suf : String) :
    extractInner pre suf (pre ++ c ++ suf) = c := by
  unfold extractInner
  have hd : (pre ++ c ++ suf).data = pre.data ++ (c.data ++ suf.data) := by
    rw [String.data_append, String.data_append, List.append_assoc]
  rw [hd, List.drop_left]
  have hlen : (pre.data ++ (c.data ++ suf.data)).length - pre.data.length - suf.data.length =
      c.data.length := by
    simp only [List.length_append]
    omega
  rw [hlen, List.take_left]

/-- A list is a Boolean prefix of itself followed by anything. -/
theorem isPrefixOf_self_append (l t : List Char) : List.isPrefixOf l (l ++ t) = true := by
  induction l with
  | nil => simp [List.isPrefixOf]
  | cons c cs ih => simp [List.isPrefixOf, ih]

/-- Relativizing a path joined under the working directory gives back the
plain relative name. -/
theorem pathRelative_joinPath (cwd f : String) : pathRelative cwd (joinPath cwd f) = f := by
  unfold pathRelative joinPath
  by_cases hc : cwd = ""
  · simp only [if_pos hc]
  · rw [if_neg hc, if_neg hc]
    have hdata : (cwd ++ "/" ++ f).data = (cwd.data ++ ['/']) ++ f.data := by
      rw [String.data_append, String.data_append]
    have hpre : List.isPrefixOf (cwd.data ++ ['/']) ((cwd ++ "/" ++ f).data) = true := by
      rw [hdata]
      exact isPrefixOf_self_append _ _
    rw [if_pos hpre, hdata]
    have hlen : cwd.data.length + 1 = (cwd.data ++ ['/']).length := by simp
    rw [hlen, List.drop_left]

/-- C4 amended: a write failure is caught inside writeToFile, which logs an
error line naming the output path and the reason; the run then continues,
logs the normal completion message, and exits with code 0 — the error never
reaches the caller. -/
theorem write_failure_logged_run_continues (e outputPath : String) :
    writeToFile (Except.error e) outputPath =
        ["error: Error writing to file " ++ outputPath ++ ": " ++ e] ∧
      mainAfterPrompt true (Except.error e) outputPath =
        (["info: Generating code context...",
          "error: Error writing to file " ++ outputPath ++ ": " ++ e,
          "info: Content generated. You can find it in the output file."], 0) :=
  ⟨rfl, rfl⟩

/-- C5: in XML mode a successfully read file produces a block that is
exactly the `<file path="...">` opener with the CDATA wrapper, the raw
content, and the closing wrapper; extracting the text between the wrapper
delimiters for that path reproduces the content byte for byte. -/
theorem xml_block_roundtrip (cwd filePath content : String) (config : Config)
    (h : config.outputFormat = OutputFormat.XML) :
    getFileContent cwd filePath (Except.ok content) config =
        ("<file path=\"" ++ pathRelative cwd filePath ++ "\">\n<![CDATA[\n") ++
          content ++ "\n]]>\n</file>\n\n" ∧
      extractInner ("<file path=\"" ++ pathRelative cwd filePath ++ "\">\n<![CDATA[\n")
          "\n]]>\n</file>\n\n"
          (getFileContent cwd filePath (Except.ok content) config) = content := by
  have hb : getFileContent cwd filePath (Except.ok content) config =
      ("<file path=\"" ++ pathRelative cwd filePath ++ "\">\n<![CDATA[\n") ++
        content ++ "\n]]>\n</file>\n\n" := by
    simp only [getFileContent, h]
    rfl
  refine ⟨hb, ?_⟩
  rw [hb]
  exact extract_sandwich _ content _

/-- Witness for C5 at a concrete file: content with XML-looking text
survives the CDATA wrapper unchanged. -/
theorem xml_block_roundtrip_witness :
    getFileContent "" "src/a.xmlish" (Except.ok "<b>&amp;\nraw</b>")
        { «include» := ["**/*"], exclude := [], maxFileSize := 100,
          outputFormat := OutputFormat.XML } =
        ("<file path=\"" ++ pathRelative "" "src/a.xmlish" ++ "\">\n<![CDATA[\n") ++
          "<b>&amp;\nraw</b>" ++ "\n]]>\n</file>\n\n" ∧
      extractInner ("<file path=\"" ++ pathRelative "" "src/a.xmlish" ++ "\">\n<![CDATA[\n")
          "\n]]>\n</file>\n\n"
          (getFileContent "" "src/a.xmlish" (Except.ok "<b>&amp;\nraw</b>")
            { «include» := ["**/*"], exclude := [], maxFileSize := 100,
              outputFormat := OutputFormat.XML }) = "<b>&amp;\nraw</b>" :=
  xml_block_roundtrip "" "src/a.xmlish" "<b>&amp;\nraw</b>"
    { «include» := ["**/*"], exclude := [], maxFileSize := 100,
      outputFormat := OutputFormat.XML } rfl

/-- C6: in markdown mode a successfully read file at `path.join(cwd, f)`
produces a fenced code block whose info-string is exactly `f`, the path
relative to the working directory, and whose body between the fences is the
raw content, unescaped; extracting between the fences reproduces the
content byte for byte. -/
theorem markdown_block_roundtrip (cwd f content : String) (config : Config)
    (h : config.outputFormat = OutputFormat.Markdown) :
    getFileContent cwd (joinPath cwd f) (Except.ok content) config =
        ("```" ++ f ++ "\n") ++ content ++ "\n```\n\n" ∧
      extractInner ("```" ++ f ++ "\n") "\n```\n\n"
          (getFileContent cwd (joinPath cwd f) (Except.ok content) config) = content := by
  have hx : ¬(config.outputFormat = OutputFormat.XML) := by
    rw [h]
    intro hc
    cases hc
  have hb : getFileContent cwd (joinPath cwd f) (Except.ok content) config =
      ("```" ++ f ++ "\n") ++ content ++ "\n```\n\n" := by
    simp only [getFileContent, if_neg hx, pathRelative_joinPath]
  refine ⟨hb, ?_⟩
  rw [hb]
  exact extract_sandwich _ content _

/-- Witness for C6 at a concrete file: backtick-bearing content under
`src/m.ts` renders with info-string `src/m.ts` and unaltered body. -/
theorem markdown_block_roundtrip_witness :
    getFileContent "/work" (joinPath "/work" "src/m.ts") (Except.ok "let x = 1;\n// `tick`")
        { «include» := ["**/*"], exclude := [], maxFileSize := 100,
          outputFormat := OutputFormat.Markdown } =
        ("```" ++ "src/m.ts" ++ "\n") ++ "let x = 1;\n// `tick`" ++ "\n```\n\n" ∧
      extractInner ("```" ++ "src/m.ts" ++ "\n") "\n```\n\n"
          (getFileContent "/work" (joinPath "/work" "src/m.ts")
            (Except.ok "let x = 1;\n// `tick`")
            { «include» := ["**/*"], exclude := [], maxFileSize := 100,
              outputFormat := OutputFormat.Markdown }) = "let x = 1;\n// `tick`" :=
  markdown_block_roundtrip "/work" "src/m.ts" "let x = 1;\n// `tick`"
    { «include» := ["**/*"], exclude := [], maxFileSize := 100,
      outputFormat := OutputFormat.Markdown } rfl

/-- C7: in full-tree rendering, a directory named `node_modules` or `.git`
renders as its own line plus a single collapsed `...` child, independent of
its children and of the ignore matcher; any other directory flagged by the
matcher still renders its line but none of its children; a non-directory
entry renders only its line and never recurses. -/
theorem full_tree_collapse_and_ignore :
    (∀ (ig : List String) (relDir pref : String) (isLast : Bool) (name : String)
        (children : List FSEntry),
       name = "node_modules" ∨ name = ".git" →
       renderEntry ig relDir pref isLast (FSEntry.dir name children) =
         pref ++ connector isLast ++ name ++ "\n" ++ pref ++ contIndent isLast ++ "└── ...\n") ∧
    (∀ (ig : List String) (relDir pref : String) (isLast : Bool) (name : String)
        (children : List FSEntry),
       ¬(name = "node_modules" ∨ name = ".git") →
       ignores ig (joinPath relDir name) = true →
       renderEntry ig relDir pref isLast (FSEntry.dir name children) =
         pref ++ connector isLast ++ name ++ "\n") ∧
    (∀ (ig : List String) (relDir pref : String) (isLast : Bool) (name : String),
       renderEntry ig relDir pref isLast (FSEntry.file name) =
         pref ++ connector isLast ++ name ++ "\n") := by
  refine ⟨?_, ?_, ?_⟩
  · intro ig relDir pref isLast name children hname
    simp only [renderEntry]
    rw [if_pos hname]
  · intro ig relDir pref isLast name children hname hig
    simp only [renderEntry]
    rw [if_neg hname, hig]
    simp
  · intro ig relDir pref isLast name
    simp only [renderEntry]

/-- Witness for C7 at concrete entries: a populated `node_modules`
collapses to `...`, an ignored directory `secret` keeps its line with no
children, and a plain file renders one line. -/
theorem full_tree_collapse_and_ignore_witness :
    renderEntry [] "" "" true (FSEntry.dir "node_modules" [FSEntry.file "x.js"]) =
        "" ++ connector true ++ "node_modules" ++ "\n" ++ "" ++ contIndent true ++ "└── ...\n" ∧
      renderEntry ["secret"] "" "" false (FSEntry.dir "secret" [FSEntry.file "k.txt"]) =
        "" ++ connector false ++ "secret" ++ "\n" ∧
      renderEntry [] "" "" true (FSEntry.file "a.txt") =
        "" ++ connector true ++ "a.txt" ++ "\n" :=
  ⟨full_tree_collapse_and_ignore.1 [] "" "" true "node_modules" [FSEntry.file "x.js"]
      (Or.inl rfl),
   full_tree_collapse_and_ignore.2.1 ["secret"] "" "" false "secret" [FSEntry.file "k.txt"]
      (by decide) (by decide),
   full_tree_collapse_and_ignore.2.2 [] "" "" true "a.txt"⟩

/-- Concatenation of per-file blocks splits around any selected file. -/
theorem contentBlocks_split (cwd : String) (store : List (String × String)) (config : Config)
    {l : List String} {f : String} (hf : f ∈ l) :
    ∃ p q, contentBlocks cwd store config l =
      p ++ getFileContent cwd (joinPath cwd f) (readFileSync store (joinPath cwd f)) config ++ q := by
  induction l with
  | nil => cases hf
  | cons x rest ih =>
      rcases List.mem_cons.mp hf with heq | hmem
      · subst heq
        refine ⟨"", contentBlocks cwd store config rest, ?_⟩
        simp only [contentBlocks]
        rfl
      · rcases ih hmem with ⟨p, q, hpq⟩
        refine ⟨getFileContent cwd (joinPath cwd x) (readFileSync store (joinPath cwd x)) config
          ++ p, q, ?_⟩
        simp only [contentBlocks]
        rw [hpq]
        simp [String.append_assoc]

/-- C8: when selection succeeds and the later read of a selected file
fails, getFileContent catches the failure and yields an inline error line
naming the path and the reason, and generateCodeContext still assembles the
whole document, with that error line embedded where the file's block would
be. -/
theorem per_file_read_failure_inline
    (cwd : String) (st : FsState) (config : Config) (ig : List String)
    (l : List String) (f e : String)
    (hsel : getIncludedFiles st.files config ig = Except.ok l)
    (hf : f ∈ l)
    (hread : readFileSync st.contents (joinPath cwd f) = Except.error e) :
    getFileContent cwd (joinPath cwd f) (readFileSync st.contents (joinPath cwd f)) config =
        "Error reading file " ++ joinPath cwd f ++ ": " ++ e ++ "\n\n" ∧
      ∃ ctx p q, generateCodeContext cwd st config ig = Except.ok ctx ∧
        ctx = p ++ ("Error reading file " ++ joinPath cwd f ++ ": " ++ e ++ "\n\n") ++ q := by
  have herr : getFileContent cwd (joinPath cwd f) (readFileSync st.contents (joinPath cwd f))
      config = "Error reading file " ++ joinPath cwd f ++ ": " ++ e ++ "\n\n" := by
    rw [hread]
    rfl
  refine ⟨herr, ?_⟩
  rcases contentBlocks_split cwd st.contents config hf with ⟨p, q, hpq⟩
  refine ⟨"Full File Tree:\n\n" ++ generateFullFileTree ig "" st.tree ++
      "\nIncluded Files:\n\n" ++ formatIncludedFiles l ++ "\nCode Context:\n\n" ++
      contentBlocks cwd st.contents config l,
    "Full File Tree:\n\n" ++ generateFullFileTree ig "" st.tree ++
      "\nIncluded Files:\n\n" ++ formatIncludedFiles l ++ "\nCode Context:\n\n" ++ p, q, ?_, ?_⟩
  · unfold generateCodeContext
    rw [hsel]
  · rw [hpq, herr]
    simp [String.append_assoc]

/-- Witness for C8 at a concrete run: `b.txt` passes selection but its
content store entry is missing, so the assembled document carries the
inline error line for `b.txt` while `a.txt` renders normally. -/
theorem per_file_read_failure_inline_witness :
    getFileContent ""
        (joinPath "" "b.txt")
        (readFileSync [("a.txt", "hello")] (joinPath "" "b.txt"))
        { «include» := ["**/*"], exclude := [], maxFileSize := 100,
          outputFormat := OutputFormat.Markdown } =
        "Error reading file " ++ joinPath "" "b.txt" ++ ": " ++
          "ENOENT: no such file or directory, open b.txt" ++ "\n\n" ∧
      ∃ ctx p q,
        generateCodeContext ""
            { tree := [FSEntry.file "a.txt", FSEntry.file "b.txt"],
              files := [("a.txt", some 3), ("b.txt", some 3)],
              contents := [("a.txt", "hello")] }
            { «include» := ["**/*"], exclude := [], maxFileSize := 100,
              outputFormat := OutputFormat.Markdown } [] = Except.ok ctx ∧
          ctx = p ++ ("Error reading file " ++ joinPath "" "b.txt" ++ ": " ++
            "ENOENT: no such file or directory, open b.txt" ++ "\n\n") ++ q :=
  per_file_read_failure_inline ""
    { tree := [FSEntry.file "a.txt", FSEntry.file "b.txt"],
      files := [("a.txt", some 3), ("b.txt", some 3)],
      contents := [("a.txt", "hello")] }
    { «include» := ["**/*"], exclude := [], maxFileSize := 100,
      outputFormat := OutputFormat.Markdown } []
    ["a.txt", "b.txt"] "b.txt" "ENOENT: no such file or directory, open b.txt"
    rfl (by simp) rfl

/-- Reading the key just written returns the written value. -/
theorem objGet_objSet_self (o : List (String × JNode)) (k : String) (v : JNode) :
    objGet (objSet o k v) k = some v := by
  induction o with
  | nil => simp [objSet, objGet]
  | cons x rest ih =>
      obtain ⟨k2, v2⟩ := x
      by_cases h : k2 = k
      · simp [objSet, h, objGet]
      · simp [objSet, h, objGet, ih]

/-- Writing one key leaves reads of other keys unchanged. -/
theorem objGet_objSet_ne (o : List (String × JNode)) (k k2 : String) (v : JNode)
    (h : ¬(k2 = k)) : objGet (objSet o k2 v) k = objGet o k := by
  induction o with
  | nil => simp [objSet, objGet, h]
  | cons x rest ih =>
      obtain ⟨k3, v3⟩ := x
      by_cases h3 : k3 = k2
      · subst h3
        simp [objSet, objGet, h]
      · by_cases hk : k3 = k
        · subst hk
          simp [objSet, objGet, h3]
        · simp [objSet, h3, objGet, hk, ih]

/-- Looking up the empty segment list never finds a node. -/
theorem isDirAt_nil (o : List (String × JNode)) : isDirAt o [] = false := by
  simp [isDirAt, lookupPath]

/-- A one-segment lookup is directory-valued exactly when the property is a
truthy (object) value. -/
theorem isDirAt_single (o : List (String × JNode)) (x : String) :
    isDirAt o [x] = truthy (objGet o x) := by
  simp only [isDirAt, lookupPath]
  cases objGet o x with
  | none => rfl
  | some v => cases v <;> rfl

/-- A multi-segment lookup steps through the object stored at the head
key. -/
theorem isDirAt_cons (o : List (String × JNode)) (x z : String) (pp : List String) :
    isDirAt o (x :: z :: pp) =
      (match objGet o x with
       | some (JNode.obj e) => isDirAt e (z :: pp)
       | _ => false) := by
  simp only [isDirAt, lookupPath]
  cases objGet o x with
  | none => rfl
  | some v => cases v <;> rfl

/-- Inserting a path with further segments below `pp` leaves a directory
node at `pp`. -/
theorem insert_makes_dir : ∀ (pp : List String), pp ≠ [] → ∀ (extra : List String),
    extra ≠ [] → ∀ (o : List (String × JNode)),
    isDirAt (insertParts o (pp ++ extra)) pp = true := by
  intro pp
  induction pp with
  | nil => intro hpp; exact absurd rfl hpp
  | cons x pp2 ih =>
      intro _ extra hextra o
      cases pp2 with
      | nil =>
          cases extra with
          | nil => exact absurd rfl hextra
          | cons e es =>
              simp only [List.cons_append, List.nil_append, insertParts]
              rw [isDirAt_single, objGet_objSet_self]
              rfl
      | cons y pp3 =>
          simp only [List.cons_append, insertParts]
          rw [isDirAt_cons, objGet_objSet_self]
          exact ih (by simp) extra hextra _

/-- Any later insertion preserves a directory node at any position. -/
theorem insert_preserves_dir : ∀ (parts : List String) (o : List (String × JNode))
    (pp : List String), isDirAt o pp = true → isDirAt (insertParts o parts) pp = true := by
  intro parts
  induction parts with
  | nil =>
      intro o pp h
      simpa [insertParts] using h
  | cons y parts2 ih =>
      intro o pp h
      cases parts2 with
      | nil =>
          simp only [insertParts]
          by_cases ht : truthy (objGet o y) = true
          · rw [if_pos ht]
            exact h
          · rw [if_neg ht]
            cases pp with
            | nil => rw [isDirAt_nil] at h; cases h
            | cons x pp2 =>
                by_cases hx : y = x
                · subst hx
                  exfalso
                  apply ht
                  cases pp2 with
                  | nil =>
                      rw [isDirAt_single] at h
                      exact h
                  | cons z pp3 =>
                      rw [isDirAt_cons] at h
                      cases hval : objGet o y with
                      | none => rw [hval] at h; simp at h
                      | some v =>
                          cases v with
                          | nullv => rw [hval] at h; simp at h
                          | obj e => rfl
                · cases pp2 with
                  | nil =>
                      rw [isDirAt_single] at h ⊢
                      rw [objGet_objSet_ne _ _ _ _ hx]
                      exact h
                  | cons z pp3 =>
                      rw [isDirAt_cons] at h ⊢
                      rw [objGet_objSet_ne _ _ _ _ hx]
                      exact h
      | cons z2 parts3 =>
          simp only [insertParts]
          cases pp with
          | nil => rw [isDirAt_nil] at h; cases h
          | cons x pp2 =>
              by_cases hx : y = x
              · subst hx
                cases pp2 with
                | nil =>
                    rw [isDirAt_single, objGet_objSet_self]
                    rfl
                | cons z pp3 =>
                    rw [isDirAt_cons, objGet_objSet_self]
                    rw [isDirAt_cons] at h
                    cases hval : objGet o y with
                    | none => rw [hval] at h; simp at h
                    | some v =>
                        cases v with
                        | nullv => rw [hval] at h; simp at h
                        | obj e =>
                            rw [hval] at h
                            exact ih e (z :: pp3) h
              · cases pp2 with
                | nil =>
                    rw [isDirAt_single] at h ⊢
                    rw [objGet_objSet_ne _ _ _ _ hx]
                    exact h
                | cons z pp3 =>
                    rw [isDirAt_cons] at h ⊢
                    rw [objGet_objSet_ne _ _ _ _ hx]
                    exact h

/-- splitPath never yields an empty segment list. -/
theorem splitPath_ne_nil (s : String) : splitPath s ≠ [] := by
  have h : ∀ cs, splitOnChar '/' cs ≠ [] := by
    intro cs
    induction cs with
    | nil => simp [splitOnChar]
    | cons c rest ih =>
        simp only [splitOnChar]
        split
        · simp
        · split
          · simp
          · simp
  intro hm
  unfold splitPath splitSeg at hm
  exact h s.data (List.map_eq_nil_iff.mp hm)

/-- Folding further insertions over a trie preserves a directory node. -/
theorem foldl_insert_preserves (files : List String) (o : List (String × JNode))
    (pp : List String) (h : isDirAt o pp = true) :
    isDirAt (files.foldl (fun acc filePath => insertParts acc (splitPath filePath)) o) pp
      = true := by
  induction files generalizing o with
  | nil => exact h
  | cons x rest ih => exact ih _ (insert_preserves_dir _ _ _ h)

/-- A directory verdict means the lookup found an object node. -/
theorem isDirAt_lookup {o : List (String × JNode)} {pp : List String}
    (h : isDirAt o pp = true) : ∃ e, lookupPath o pp = some (JNode.obj e) := by
  unfold isDirAt at h
  cases hval : lookupPath o pp with
  | none => rw [hval] at h; cases h
  | some v =>
      cases v with
      | nullv => rw [hval] at h; cases h
      | obj e => exact ⟨e, rfl⟩

/-- C10: when the included-files list contains a path `p` and, later, a
path that extends `p` by at least one more segment, the later insertion
overwrites the `null` file leaf created for `p` with an object, so the
final trie stores a directory node at `p` and no file entry for `p`
remains. -/
theorem file_leaf_overwritten_by_dir
    (pre mid post : List String) (p q : String) (extra : List String)
    (hq : splitPath q = splitPath p ++ extra) (hextra : extra ≠ []) :
    isDirAt (buildTrie (pre ++ p :: mid ++ q :: post)) (splitPath p) = true ∧
      lookupPath (buildTrie (pre ++ p :: mid ++ q :: post)) (splitPath p) ≠
        some JNode.nullv := by
  have hsplit : pre ++ p :: mid ++ q :: post = (pre ++ p :: mid) ++ (q :: post) := by simp
  have hdir : isDirAt (buildTrie (pre ++ p :: mid ++ q :: post)) (splitPath p) = true := by
    rw [hsplit]
    unfold buildTrie
    rw [List.foldl_append, List.foldl_cons, hq]
    exact foldl_insert_preserves post _ _
      (insert_makes_dir (splitPath p) (splitPath_ne_nil p) extra hextra _)
  refine ⟨hdir, ?_⟩
  rcases isDirAt_lookup hdir with ⟨e, he⟩
  rw [he]
  intro hc
  cases hc

/-- Witness for C10 at a concrete list: `a` inserted before `a/b` ends up a
directory node, not a file leaf. -/
theorem file_leaf_overwritten_by_dir_witness :
    isDirAt (buildTrie ([] ++ "a" :: [] ++ "a/b" :: [])) (splitPath "a") = true ∧
      lookupPath (buildTrie ([] ++ "a" :: [] ++ "a/b" :: [])) (splitPath "a") ≠
        some JNode.nullv :=
  file_leaf_overwritten_by_dir [] [] [] "a" "a/b" ["b"] rfl (by simp)

/-- Introduction form for `noIndexKeys` on a cons cell. -/
theorem noIndexKeys_cons_intro {k : String} {v : JNode} {rest : List (String × JNode)}
    (h1 : isArrayIndex k = false) (h2 : valueKeysOk v = true)
    (h3 : noIndexKeys rest = true) : noIndexKeys ((k, v) :: rest) = true := by
  cases v with
  | nullv => simp [noIndexKeys, h1, h3]
  | obj e =>
      simp only [noIndexKeys, Bool.and_eq_true, Bool.not_eq_true']
      exact ⟨⟨h1, h2⟩, h3⟩

/-- Elimination form for `noIndexKeys` on a cons cell. -/
theorem noIndexKeys_parts {k : String} {v : JNode} {rest : List (String × JNode)}
    (h : noIndexKeys ((k, v) :: rest) = true) :
    isArrayIndex k = false ∧ valueKeysOk v = true ∧ noIndexKeys rest = true := by
  cases v with
  | nullv =>
      simp only [noIndexKeys, Bool.and_eq_true, Bool.not_eq_true'] at h
      exact ⟨h.1, rfl, h.2⟩
  | obj e =>
      simp only [noIndexKeys, Bool.and_eq_true, Bool.not_eq_true'] at h
      exact ⟨h.1.1, h.1.2, h.2⟩

/-- Under `noIndexKeys`, no top-level key is an array-index string. -/
theorem noIndexKeys_keys {o : List (String × JNode)} (h : noIndexKeys o = true) :
    ∀ kv ∈ o, isArrayIndex kv.1 = false := by
  induction o with
  | nil => simp
  | cons x rest ih =>
      obtain ⟨k, v⟩ := x
      rcases noIndexKeys_parts h with ⟨h1, -, h3⟩
      intro kv hkv
      rcases List.mem_cons.mp hkv with heq | hmem
      · subst heq
        exact h1
      · exact ih h3 kv hmem

/-- Under `noIndexKeys`, every stored value keeps the key discipline. -/
theorem objGet_valueOk {o : List (String × JNode)} {k : String} {v : JNode}
    (h : noIndexKeys o = true) (hg : objGet o k = some v) : valueKeysOk v = true := by
  induction o with
  | nil => simp [objGet] at hg
  | cons x rest ih =>
      obtain ⟨k2, v2⟩ := x
      rcases noIndexKeys_parts h with ⟨-, h2, h3⟩
      simp only [objGet] at hg
      by_cases hk2 : k2 = k
      · rw [if_pos hk2] at hg
        injection hg with hv
        rw [← hv]
        exact h2
      · rw [if_neg hk2] at hg
        exact ih h3 hg

/-- Writing a disciplined value at a non-index key preserves the key
discipline. -/
theorem noIndexKeys_objSet {o : List (String × JNode)} {k : String} {v : JNode}
    (h : noIndexKeys o = true) (hk : isArrayIndex k = false) (hv : valueKeysOk v = true) :
    noIndexKeys (objSet o k v) = true := by
  induction o with
  | nil =>
      simp only [objSet]
      exact noIndexKeys_cons_intro hk hv (by simp [noIndexKeys])
  | cons x rest ih =>
      obtain ⟨k2, v2⟩ := x
      rcases noIndexKeys_parts h with ⟨h1, h2, h3⟩
      simp only [objSet]
      by_cases hk2 : k2 = k
      · rw [if_pos hk2]
        exact noIndexKeys_cons_intro hk hv h3
      · rw [if_neg hk2]
        exact noIndexKeys_cons_intro h1 h2 (ih h3)

/-- Inserting a path whose segments are all non-index keys preserves the
key discipline of the trie. -/
theorem insertParts_noIndexKeys : ∀ (parts : List String) (o : List (String × JNode)),
    noIndexKeys o = true → (∀ s ∈ parts, isArrayIndex s = false) →
    noIndexKeys (insertParts o parts) = true := by
  intro parts
  induction parts with
  | nil =>
      intro o h _
      simpa [insertParts] using h
  | cons part rest ih =>
      intro o h hs
      cases rest with
      | nil =>
          simp only [insertParts]
          by_cases ht : truthy (objGet o part) = true
          · rw [if_pos ht]
            exact h
          · rw [if_neg ht]
            exact noIndexKeys_objSet h (hs part (by simp)) rfl
      | cons p2 rest2 =>
          simp only [insertParts]
          have hchild : noIndexKeys
              (match objGet o part with
               | some (JNode.obj e) => e
               | _ => ([] : List (String × JNode))) = true := by
            cases hval : objGet o part with
            | none => simp [noIndexKeys]
            | some v =>
                cases v with
                | nullv => simp [noIndexKeys]
                | obj e => exact objGet_valueOk h hval
          have hrec := ih _ hchild (fun s hsm => hs s (List.mem_cons_of_mem part hsm))
          exact noIndexKeys_objSet h (hs part (by simp)) hrec

/-- The trie built from files whose path segments are all non-index keys
satisfies the key discipline. -/
theorem buildTrie_noIndexKeys {files : List String}
    (h : ∀ f ∈ files, ∀ s ∈ splitPath f, isArrayIndex s = false) :
    noIndexKeys (buildTrie files) = true := by
  unfold buildTrie
  suffices hgen : ∀ (o : List (String × JNode)), noIndexKeys o = true →
      noIndexKeys (files.foldl (fun acc filePath => insertParts acc (splitPath filePath)) o)
        = true from hgen [] (by simp [noIndexKeys])
  induction files with
  | nil => intro o ho; exact ho
  | cons f rest ih =>
      intro o ho
      simp only [List.foldl_cons]
      exact ih (fun g hg s hsm => h g (List.mem_cons_of_mem f hg) s hsm) _
        (insertParts_noIndexKeys _ _ ho (h f (by simp)))

/-- With no array-index key at the top level, JS property enumeration is
plain insertion order. -/
theorem jsEntries_id {o : List (String × JNode)}
    (hk : ∀ kv ∈ o, isArrayIndex kv.1 = false) : jsEntries o = o := by
  unfold jsEntries
  have h1 : o.filter (fun e => isArrayIndex e.1) = [] :=
    List.filter_eq_nil_iff.mpr (fun a ha => by simp [hk a ha])
  have h2 : o.filter (fun e => !isArrayIndex e.1) = o :=
    List.filter_eq_self.mpr (fun a ha => by simp [hk a ha])
  rw [h1, h2]
  rfl

/-- When no key anywhere in the trie is an array-index string, the source's
rendering (which reads children through `Object.entries`) coincides with
pure insertion-order rendering at every level. -/
theorem renderList_eq_insertion : ∀ (n : Nat) (o : List (String × JNode)), sizeOf o ≤ n →
    noIndexKeys o = true → ∀ pref, renderList o pref = renderListIns o pref := by
  intro n
  induction n with
  | zero =>
      intro o hsz h pref
      exfalso
      cases o <;> simp_arith at hsz
  | succ n ih =>
      intro o hsz hok pref
      cases o with
      | nil => simp only [renderList, renderListIns]
      | cons x rest =>
          obtain ⟨k, v⟩ := x
          rcases noIndexKeys_parts hok with ⟨hk1, hv, hrest⟩
          cases rest with
          | nil =>
              cases v with
              | nullv => simp only [renderList, renderListIns]
              | obj e =>
                  have he : noIndexKeys e = true := hv
                  have hesz : sizeOf e ≤ n := by
                    simp_arith at hsz
                    omega
                  simp only [renderList, renderListIns]
                  rw [jsEntries_id (noIndexKeys_keys he)]
                  rw [ih e hesz he (pref ++ "    ")]
          | cons y rest2 =>
              have htsz : sizeOf (y :: rest2) ≤ n := by
                have hc : sizeOf (y :: rest2) = 1 + sizeOf y + sizeOf rest2 := by simp_arith
                simp_arith at hsz
                omega
              have htail : renderList (y :: rest2) pref = renderListIns (y :: rest2) pref :=
                ih _ htsz hrest pref
              cases v with
              | nullv =>
                  simp only [renderList, renderListIns]
                  rw [htail]
              | obj e =>
                  have he : noIndexKeys e = true := hv
                  have hesz : sizeOf e ≤ n := by
                    simp_arith at hsz
                    omega
                  simp only [renderList, renderListIns]
                  rw [jsEntries_id (noIndexKeys_keys he)]
                  rw [ih e hesz he (pref ++ "│   ")]
                  rw [htail]

/-- C9 counterexample: for the included-file list `["10", "2"]` the trie
insertion order is `10` then `2`, but the rendering loop reads the node
through `Object.entries`, which enumerates array-index keys first in
ascending numeric order — `2` is rendered before `10`, so sibling order
does not follow the selection/insertion order. -/
theorem sibling_order_insertion_cex :
    formatIncludedFiles ["10", "2"] = "├── 2\n└── 10\n" ∧
      formatIncludedFilesInsertionOrder ["10", "2"] = "├── 10\n└── 2\n" ∧
      formatIncludedFiles ["10", "2"] ≠ formatIncludedFilesInsertionOrder ["10", "2"] := by
  have e1 : formatIncludedFiles ["10", "2"] = "├── 2\n└── 10\n" := by
    have h : jsEntries (buildTrie ["10", "2"]) = [("2", JNode.nullv), ("10", JNode.nullv)] := rfl
    show renderList (jsEntries (buildTrie ["10", "2"])) "" = _
    rw [h]
    simp only [renderList]
    decide
  have e2 : formatIncludedFilesInsertionOrder ["10", "2"] = "├── 10\n└── 2\n" := by
    show renderListIns (buildTrie ["10", "2"]) "" = _
    have h : buildTrie ["10", "2"] = [("10", JNode.nullv), ("2", JNode.nullv)] := rfl
    rw [h]
    simp only [renderListIns]
    decide
  refine ⟨e1, e2, ?_⟩
  rw [e1, e2]
  decide

/-- C9 amended: sibling order at every level of the rendered inclusion tree
follows first-insertion order — which follows selection order — provided no
path segment of any included file is a canonical array-index string; for
array-index-named siblings, ECMAScript property ordering renders them
first, in ascending numeric order, breaking insertion order. -/
theorem sibling_order_follows_insertion_amended (files : List String)
    (h : ∀ f ∈ files, ∀ s ∈ splitPath f, isArrayIndex s = false) :
    formatIncludedFiles files = formatIncludedFilesInsertionOrder files := by
  have hok : noIndexKeys (buildTrie files) = true := buildTrie_noIndexKeys h
  unfold formatIncludedFiles formatIncludedFilesInsertionOrder
  rw [jsEntries_id (noIndexKeys_keys hok)]
  exact renderList_eq_insertion (sizeOf (buildTrie files)) _ le_rfl hok ""

/-- Witness for the amended C9 at a concrete list with nested non-numeric
names: JS rendering equals insertion-order rendering. -/
theorem sibling_order_follows_insertion_amended_witness :
    formatIncludedFiles ["src/a.ts", "src/b.ts", "README.md"] =
      formatIncludedFilesInsertionOrder ["src/a.ts", "src/b.ts", "README.md"] :=
  sibling_order_follows_insertion_amended ["src/a.ts", "src/b.ts", "README.md"] (by decide)
